import Mathlib

/-!
Verification of the masonry layout core in `src/components/masonry.js`:
breakpoint resolution (`calculateColumnCount`), the item distribution of
`createLayout`, the constructor's parsing of the `breakpointCols`
attribute, and the `throttle` rate limiter.  Machine integers of the
source are modelled as `Int`/`Nat`; code paths that throw are modelled
with `Option`/`Except`.
-/

namespace Masonry

/-- Option flags read off `data-masonry-*` attributes that select the
distribution strategy in `createLayout`: `sortByHeight` is checked first,
then `horizontalOrder`, and otherwise the sequential branch runs. -/
structure MasonryOptions where
  sortByHeight : Bool
  horizontalOrder : Bool
  deriving DecidableEq, Repr

/-- Walk step of the breakpoint loop in `calculateColumnCount` (lines
141-152): starting from the default, the value of the first threshold `t`
with `windowWidth <= t` is taken and the loop breaks; if none matches the
default is kept. -/
def resolveWalk (w : Int) : List (Int × Int) → Option Int → Option Int
  | [], d => d
  | (k, v) :: rest, d => if w ≤ k then some v else resolveWalk w rest d

/-- Ordering of breakpoint entries by threshold key, used to model
`Object.keys(...).map(Number).sort((a, b) => a - b)` together with the
`this.breakpointCols[breakpoint]` lookup as a sort of (key, value) pairs
by key. -/
def rleFst : (Int × Int) → (Int × Int) → Prop := fun a b => a.1 ≤ b.1

instance : DecidableRel rleFst := fun a b => inferInstanceAs (Decidable (a.1 ≤ b.1))

instance : IsTotal (Int × Int) rleFst := ⟨fun a b => Int.le_total a.1 b.1⟩

instance : IsTrans (Int × Int) rleFst := ⟨fun _ _ _ hab hbc => le_trans hab hbc⟩

/-- Ascending sort of the breakpoint entries by threshold key. -/
def sortThresholds (thresholds : List (Int × Int)) : List (Int × Int) :=
  thresholds.insertionSort rleFst

/-- Model of `calculateColumnCount` (lines 132-157) for a table-valued
`breakpointCols`: sort the thresholds ascending, walk them and return the
value at the first threshold at or above the window width, else the
table's `default` (an `Option Int`, `none` modelling an absent field,
i.e. `undefined`). -/
def calculateColumnCount (windowWidth : Int) (thresholds : List (Int × Int))
    (deflt : Option Int) : Option Int :=
  resolveWalk windowWidth (sortThresholds thresholds) deflt

/-- Parsed JSON values relevant to the `breakpointCols` attribute:
`null`, a number, or an object holding threshold entries plus an optional
`default` field. -/
inductive Json where
  | null : Json
  | num : Int → Json
  | obj : List (Int × Int) → Option Int → Json
  deriving DecidableEq

/-- Value the constructor stores in `this.breakpointCols`: a table, or
JavaScript `null`, which also passes the `typeof parsed === "object"`
test. -/
inductive BVal where
  | nullv : BVal
  | table : List (Int × Int) → Option Int → BVal
  deriving DecidableEq

/-- Constructor lines 19-29.  The argument is the outcome of
`JSON.parse(container.dataset.breakpointCols)`, with `none` meaning the
parse threw.  Returns the stored `breakpointCols` value together with
whether `console.error` was invoked.  Since `typeof null === "object"`, a
parsed `null` is stored as-is; a parsed number `n` is stored as
`{ default: parseInt(n, 10) }`; a parse failure is logged and replaced by
the fallback `{ default: 2 }`. -/
def parseBreakpointCols : Option Json → BVal × Bool
  | none => (BVal.table [] (some 2), true)
  | some Json.null => (BVal.nullv, false)
  | some (Json.num n) => (BVal.table [] (some n), false)
  | some (Json.obj thresholds deflt) => (BVal.table thresholds deflt, false)

/-- `calculateColumnCount` run against the stored `breakpointCols` value:
on `null` the call `Object.keys(null)` throws a `TypeError`; on a table
it returns the resolved count (`ok none` models `undefined`, reachable
when the table lacks a `default` and no threshold matches). -/
def calcColumnCountOf (bv : BVal) (w : Int) : Except String (Option Int) :=
  match bv with
  | BVal.nullv => Except.error "TypeError: cannot convert null to object"
  | BVal.table thresholds deflt => Except.ok (calculateColumnCount w thresholds deflt)

/-- Accumulator step of
`columns.reduce((shortest, current) => m(current) < m(shortest) ? current : shortest, columns[0])`:
the current element replaces the accumulator only when its measure is
strictly smaller, so ties keep the earlier column. -/
def reduceCols (f : γ → Nat) (best : γ) : List γ → γ
  | [] => best
  | x :: rest => reduceCols f (if f x < f best then x else best) rest

/-- The `columns.reduce(..., columns[0])` call, returning the index of the
chosen column; over an empty column list `columns[0]` is `undefined`,
modelled as `none`.  Columns are paired with their indices because the
source works with column nodes, which are distinct even when their
contents are equal. -/
def reduceArgmin (m : List α → Nat) : List (List α) → Option Nat
  | [] => none
  | c0 :: rest => some (reduceCols (fun p => m p.2) ((0 : Nat), c0) ((c0 :: rest).enum)).1

/-- Column index an item goes to, per the branch structure of
`createLayout` lines 102-127: under `sortByHeight` the column of least
accumulated height (`offsetHeight`, modelled as the sum of the externally
provided per-item heights); else under `horizontalOrder` the column with
the fewest children; else the sequential branch's `index % columnCount`. -/
def chooseColumn (opts : MasonryOptions) (h : α → Nat) (c : Nat)
    (cols : List (List α)) (i : Nat) : Option Nat :=
  if opts.sortByHeight then reduceArgmin (fun col => (col.map h).sum) cols
  else if opts.horizontalOrder then reduceArgmin List.length cols
  else some (i % c)

/-- `column.appendChild(item)`: append the item at the end of the column
at index `j`; `none` when that column does not exist, since
`undefined.appendChild` throws. -/
def placeAt (cols : List (List α)) (j : Nat) (x : α) : Option (List (List α)) :=
  match cols[j]? with
  | some col => some (cols.set j (col ++ [x]))
  | none => none

/-- The `forEach` distribution loop of `createLayout`, processing items in
original order with their indices, from state `s` at item index `k`. -/
def distribute (opts : MasonryOptions) (h : α → Nat) (c : Nat) :
    List (List α) → Nat → List α → Option (List (List α))
  | s, _, [] => some s
  | s, k, x :: xs =>
    match chooseColumn opts h c s k with
    | none => none
    | some j =>
      match placeAt s j x with
      | none => none
      | some s1 => distribute opts h c s1 (k + 1) xs

/-- Model of `createLayout` (lines 75-130) restricted to its distribution
logic: the `columnCount` columns start empty (cleared or freshly created)
and `this.originalItems` are distributed per the selected strategy. -/
def createLayout (opts : MasonryOptions) (h : α → Nat) (items : List α) (c : Nat) :
    Option (List (List α)) :=
  distribute opts h c (List.replicate c []) 0 items

/-- Chooser for the greedy strategies following the spec's words: the
first column, in a left-to-right scan, whose measure equals the minimum
(smallest measure wins, ties broken by lowest column index). -/
def specChoose (meas : List Nat) : Nat :=
  meas.findIdx (fun v => meas.all (fun u => decide (v ≤ u)))

/-- Spec-side placement: extend column `j` with the item. -/
def specPlace (s : List (List α)) (j : Nat) (x : α) : List (List α) :=
  s.set j (s.getD j [] ++ [x])

/-- Greedy distribution following the spec's words: each item, in
original order, goes to the first column of minimal measure. -/
def specDistribute (m : List α → Nat) : List (List α) → List α → List (List α)
  | s, [] => s
  | s, x :: xs => specDistribute m (specPlace s (specChoose (s.map m)) x) xs

/-- The `fewest-items` strategy as the spec words it: place each item in
the column currently holding the fewest items. -/
def specFewestItems (items : List α) (c : Nat) : List (List α) :=
  specDistribute List.length (List.replicate c []) items

/-- The `shortest-height` strategy as the spec words it: place each item
in the column with smallest accumulated height, the height of a column
being the accumulated external per-item heights. -/
def specShortestHeight (h : α → Nat) (items : List α) (c : Nat) : List (List α) :=
  specDistribute (fun col => (col.map h).sum) (List.replicate c []) items

/-- Measure the greedy branches of `createLayout` compare: accumulated
height under `sortByHeight`, child count under `horizontalOrder`. -/
def measureOf (opts : MasonryOptions) (h : α → Nat) : List α → Nat :=
  if opts.sortByHeight then fun col => (col.map h).sum else List.length

/-- Ordering of index-carrying items by original index. -/
def rleIdx : (Nat × α) → (Nat × α) → Prop := fun a b => a.1 ≤ b.1

/-- Strict ordering of index-carrying items by original index. -/
def rltIdx : (Nat × α) → (Nat × α) → Prop := fun a b => a.1 < b.1

instance : DecidableRel (rleIdx (α := α)) := fun a b => inferInstanceAs (Decidable (a.1 ≤ b.1))

instance : IsTotal (Nat × α) rleIdx := ⟨fun a b => Nat.le_total a.1 b.1⟩

instance : IsTrans (Nat × α) rleIdx := ⟨fun _ _ _ hab hbc => le_trans hab hbc⟩

instance : IsTrans (Nat × α) rltIdx := ⟨fun _ _ _ hab hbc => lt_trans hab hbc⟩

instance : IsAntisymm (Nat × α) rltIdx := ⟨fun _ _ h h2 => absurd h2 (Nat.lt_asymm h)⟩

/-- Re-sort an index-carrying item list by original index. -/
def sortByIdx (l : List (Nat × α)) : List (Nat × α) :=
  l.insertionSort rleIdx

/-- Item count of column `j` after round-robin placement of `k` items
over `c` columns. -/
def profileCount (k c j : Nat) : Nat :=
  k / c + if j < k % c then 1 else 0

/-- Closure state of `throttle` (lines 187-208): `lastRan` (unset until
the first call) and the pending `setTimeout`, recorded as (fire time, the
`now` captured when it was scheduled, the captured width argument). -/
structure ThrottleState where
  lastRan : Option Int
  pending : Option (Int × Int × Int)
  deriving DecidableEq

/-- JavaScript falsiness of `lastRan` in `if (!lastRan)`: `undefined` and
`0` are falsy. -/
def jsFalsy : Option Int → Bool
  | none => true
  | some v => v == 0

/-- One invocation of the throttled function at time `t` with width `w`:
on the first call the handler runs immediately and `lastRan` is set;
otherwise the pending timer is cleared and a new one is scheduled for
`limit - (now - lastRan)` from now, capturing the current `now` and the
current width.  Returns the new state and the handler executions
(time, width) performed by this invocation. -/
def throttleCall (limit : Int) (s : ThrottleState) (t w : Int) :
    ThrottleState × List (Int × Int) :=
  if jsFalsy s.lastRan then
    ({ lastRan := some t, pending := s.pending }, [(t, w)])
  else
    ({ lastRan := s.lastRan,
       pending := some (t + (limit - (t - s.lastRan.getD 0)), t, w) }, [])

/-- A burst of width-change calls processed in order, starting from the
fresh closure state.  (All burst calls occur before any scheduled timer
fires, which holds for a burst inside one quiescence window.) -/
def runBurst (limit : Int) (calls : List (Int × Int)) :
    ThrottleState × List (Int × Int) :=
  calls.foldl
    (fun acc call =>
      let r := throttleCall limit acc.1 call.1 call.2
      (r.1, acc.2 ++ r.2))
    ({ lastRan := none, pending := none }, [])

/-- The pending timer firing after silence: the handler runs only when
`now - lastRan >= limit` passes, where `now` is the value captured when
the timer was scheduled (not the fire time); it runs with the captured
width.  Returns the handler executions (fire time, width). -/
def firePending (limit : Int) (s : ThrottleState) : List (Int × Int) :=
  match s.pending with
  | none => []
  | some p => if limit ≤ p.2.1 - s.lastRan.getD 0 then [(p.1, p.2.2)] else []

/-! Characterization of the `reduce`-based argmin scan. -/

/-- The strict-min fold keeps the accumulator unless strictly beaten, so
its result is the first element of minimal measure: either the initial
accumulator bounds everything, or the result is the element at the first
position whose measure goes strictly below the accumulator and below all
earlier positions, and at or below all later ones. -/
theorem reduceCols_spec (f : γ → Nat) (ps : List γ) :
    ∀ best : γ,
      (reduceCols f best ps = best ∧ ∀ q ∈ ps, f best ≤ f q)
      ∨ (∃ i, ∃ hi : i < ps.length,
          reduceCols f best ps = ps.get ⟨i, hi⟩ ∧ f (ps.get ⟨i, hi⟩) < f best ∧
          (∀ i2, ∀ h2 : i2 < ps.length, i2 < i → f (ps.get ⟨i, hi⟩) < f (ps.get ⟨i2, h2⟩)) ∧
          (∀ i2, ∀ h2 : i2 < ps.length, i < i2 → f (ps.get ⟨i, hi⟩) ≤ f (ps.get ⟨i2, h2⟩))) := by
  induction ps with
  | nil => intro best; exact Or.inl ⟨rfl, by intro q hq; cases hq⟩
  | cons x xs ih =>
    intro best
    by_cases hx : f x < f best
    · have hstep : reduceCols f best (x :: xs) = reduceCols f x xs := by
        simp [reduceCols, hx]
      rcases ih x with ⟨heq, hall⟩ | ⟨i, hi, heq, hlt, hbef, haft⟩
      · refine Or.inr ⟨0, Nat.succ_pos _, ?_, ?_, ?_, ?_⟩
        · rw [hstep, heq]; rfl
        · simpa using hx
        · intro i2 h2 hcon; omega
        · intro i2 h2 hpos
          cases i2 with
          | zero => omega
          | succ i3 =>
            simpa using hall (xs.get ⟨i3, by simpa using h2⟩) (xs.get_mem _ _)
      · refine Or.inr ⟨i + 1, by simpa using hi, ?_, ?_, ?_, ?_⟩
        · rw [hstep, heq]; rfl
        · exact lt_trans (by simpa using hlt) hx
        · intro i2 h2 hlt2
          cases i2 with
          | zero => simpa using hlt
          | succ i3 => simpa using hbef i3 (by simpa using h2) (by omega)
        · intro i2 h2 hgt
          cases i2 with
          | zero => omega
          | succ i3 => simpa using haft i3 (by simpa using h2) (by omega)
    · have hstep : reduceCols f best (x :: xs) = reduceCols f best xs := by
        simp [reduceCols, hx]
      rcases ih best with ⟨heq, hall⟩ | ⟨i, hi, heq, hlt, hbef, haft⟩
      · refine Or.inl ⟨by rw [hstep, heq], ?_⟩
        intro q hq
        rcases List.mem_cons.mp hq with rfl | hq2
        · omega
        · exact hall q hq2
      · refine Or.inr ⟨i + 1, by simpa using hi, ?_, ?_, ?_, ?_⟩
        · rw [hstep, heq]; rfl
        · simpa using hlt
        · intro i2 h2 hlt2
          cases i2 with
          | zero =>
            simpa using lt_of_lt_of_le (by simpa using hlt) (le_of_not_lt hx)
          | succ i3 => simpa using hbef i3 (by simpa using h2) (by omega)
        · intro i2 h2 hgt
          cases i2 with
          | zero => omega
          | succ i3 => simpa using haft i3 (by simpa using h2) (by omega)

/-- The `reduce` over the column list picks exactly the first column of
minimal measure: the result index is in range, its measure is a minimum,
and every strictly earlier column has strictly larger measure. -/
theorem reduceArgmin_spec (m : List α → Nat) (cols : List (List α)) (hne : cols ≠ []) :
    ∃ j, reduceArgmin m cols = some j ∧ j < cols.length ∧
      (∀ k, k < cols.length → m (cols.getD j []) ≤ m (cols.getD k [])) ∧
      (∀ k, k < j → m (cols.getD j []) < m (cols.getD k [])) := by
  match cols with
  | [] => exact absurd rfl hne
  | c0 :: rest =>
    have henum : (c0 :: rest).enum = ((0 : Nat), c0) :: List.enumFrom 1 rest := rfl
    have hskip : reduceCols (fun p => m p.2) ((0 : Nat), c0) (((0 : Nat), c0) :: List.enumFrom 1 rest)
        = reduceCols (fun p => m p.2) ((0 : Nat), c0) (List.enumFrom 1 rest) := by
      simp [reduceCols]
    have hargdef : reduceArgmin m (c0 :: rest)
        = some (reduceCols (fun p => m p.2) ((0 : Nat), c0) (List.enumFrom 1 rest)).1 := by
      rw [reduceArgmin, henum, hskip]
    have hlenE : (List.enumFrom 1 rest).length = rest.length := List.enumFrom_length
    have hgetE : ∀ i, ∀ hi : i < (List.enumFrom 1 rest).length,
        (List.enumFrom 1 rest).get ⟨i, hi⟩ = (1 + i, rest.get ⟨i, by omega⟩) := by
      intro i hi
      have := List.getElem_enumFrom rest 1 i (by simpa using hi)
      simp [List.get_eq_getElem, this]
    have hgetcols : ∀ i, ∀ hi : i < rest.length, (c0 :: rest).getD (1 + i) [] = rest.get ⟨i, hi⟩ := by
      intro i hi
      have h1 : 1 + i = i + 1 := by omega
      rw [h1]
      have : (c0 :: rest).getD (i + 1) [] = rest.getD i [] := rfl
      rw [this, List.getD_eq_getElem rest [] hi, List.get_eq_getElem]
    rcases reduceCols_spec (fun p => m p.2) (List.enumFrom 1 rest) ((0 : Nat), c0) with
      ⟨heq, hall⟩ | ⟨i, hi, heq, hlt, hbef, haft⟩
    · refine ⟨0, by rw [hargdef, heq], Nat.succ_pos _, ?_, ?_⟩
      · intro k hk
        cases k with
        | zero => exact le_refl _
        | succ k2 =>
          have hk2 : k2 < rest.length := by simpa using hk
          have hmem : (1 + k2, rest.get ⟨k2, hk2⟩) ∈ List.enumFrom 1 rest := by
            have := hgetE k2 (by omega)
            rw [← this]
            exact List.get_mem _ _ _
          have := hall _ hmem
          have hc : (c0 :: rest).getD 0 [] = c0 := rfl
          have hk3 : k2 + 1 = 1 + k2 := by omega
          rw [hc, hk3, hgetcols k2 hk2]
          exact this
      · intro k hk; omega
    · have hiR : i < rest.length := by omega
      have hval : (List.enumFrom 1 rest).get ⟨i, hi⟩ = (1 + i, rest.get ⟨i, hiR⟩) := hgetE i hi
      refine ⟨1 + i, ?_, by simp; omega, ?_, ?_⟩
      · rw [hargdef, heq, hval]
      · intro k hk
        have hj : (c0 :: rest).getD (1 + i) [] = rest.get ⟨i, hiR⟩ := hgetcols i hiR
        rw [hj]
        cases k with
        | zero =>
          have : m (rest.get ⟨i, hiR⟩) < m c0 := by
            have := hlt; rw [hval] at this; simpa using this
          exact le_of_lt this
        | succ k2 =>
          have hk2 : k2 < rest.length := by simpa using hk
          have hk3 : k2 + 1 = 1 + k2 := by omega
          rw [hk3, hgetcols k2 hk2]
          rcases lt_trichotomy k2 i with hlt2 | rfl | hgt2
          · have := hbef k2 (by omega) hlt2
            rw [hval, hgetE k2 (by omega)] at this
            exact le_of_lt (by simpa using this)
          · exact le_refl _
          · have := haft k2 (by omega) hgt2
            rw [hval, hgetE k2 (by omega)] at this
            simpa using this
      · intro k hk
        have hj : (c0 :: rest).getD (1 + i) [] = rest.get ⟨i, hiR⟩ := hgetcols i hiR
        rw [hj]
        cases k with
        | zero =>
          have := hlt; rw [hval] at this
          simpa using this
        | succ k2 =>
          have hk2 : k2 < i := by omega
          have := hbef k2 (by omega) hk2
          rw [hval, hgetE k2 (by omega)] at this
          have hk3 : k2 + 1 = 1 + k2 := by omega
          rw [hk3, hgetcols k2 (by omega)]
          simpa using this

/-- Every nonempty list of naturals has a member below all members. -/
theorem exists_min_mem : ∀ (l : List Nat), l ≠ [] → ∃ v ∈ l, ∀ u ∈ l, v ≤ u := by
  intro l
  induction l with
  | nil => intro hne; exact absurd rfl hne
  | cons x xs ih =>
    intro _
    by_cases hxs : xs = []
    · subst hxs
      exact ⟨x, List.mem_singleton_self x, by intro u hu; rw [List.mem_singleton.mp hu]⟩
    · obtain ⟨v, hvmem, hvall⟩ := ih hxs
      rcases le_total x v with hxv | hvx
      · refine ⟨x, List.mem_cons_self x xs, ?_⟩
        intro u hu
        rcases List.mem_cons.mp hu with rfl | hu2
        · exact le_refl _
        · exact le_trans hxv (hvall u hu2)
      · refine ⟨v, List.mem_cons_of_mem x hvmem, ?_⟩
        intro u hu
        rcases List.mem_cons.mp hu with rfl | hu2
        · exact hvx
        · exact hvall u hu2

/-- The spec-side chooser picks the first index of minimal value: it is in
range, its value is a minimum, and every earlier index has a strictly
larger value. -/
theorem specChoose_spec (meas : List Nat) (hne : meas ≠ []) :
    specChoose meas < meas.length ∧
      (∀ k, k < meas.length → meas.getD (specChoose meas) 0 ≤ meas.getD k 0) ∧
      (∀ k, k < specChoose meas → meas.getD (specChoose meas) 0 < meas.getD k 0) := by
  obtain ⟨v, hvmem, hvall⟩ := exists_min_mem meas hne
  have hvp : meas.all (fun u => decide (v ≤ u)) = true := by
    rw [List.all_eq_true]
    intro u hu
    exact decide_eq_true (hvall u hu)
  have hlt : specChoose meas < meas.length :=
    List.findIdx_lt_length_of_exists ⟨v, hvmem, hvp⟩
  have hgetD : meas.getD (specChoose meas) 0 = meas.get ⟨specChoose meas, hlt⟩ := by
    rw [List.getD_eq_getElem meas 0 hlt, List.get_eq_getElem]
  have hjmin : ∀ u ∈ meas, meas.get ⟨specChoose meas, hlt⟩ ≤ u := by
    have h1 : meas.all (fun u => decide (meas.get ⟨specChoose meas, hlt⟩ ≤ u)) = true := by
      have := @List.findIdx_getElem _ (fun v2 => meas.all (fun u => decide (v2 ≤ u))) meas hlt
      simpa [List.get_eq_getElem] using this
    intro u hu
    exact of_decide_eq_true (List.all_eq_true.mp h1 u hu)
  refine ⟨hlt, ?_, ?_⟩
  · intro k hk
    rw [hgetD, List.getD_eq_getElem meas 0 hk]
    exact hjmin _ (List.getElem_mem hk)
  · intro k hk
    have hkl : k < meas.length := lt_trans hk hlt
    have hfail := @List.not_of_lt_findIdx _ (fun v2 => meas.all (fun u => decide (v2 ≤ u)))
      meas k hk
    have hnot : ¬ ∀ u ∈ meas, meas.getD k 0 ≤ u := by
      intro hcon
      have : meas.all (fun u => decide (meas.getD k 0 ≤ u)) = true := by
        rw [List.all_eq_true]
        intro u hu
        exact decide_eq_true (hcon u hu)
      rw [List.getD_eq_getElem meas 0 hkl] at this
      rw [this] at hfail
      exact Bool.noConfusion hfail
    push_neg at hnot
    obtain ⟨u, humem, hult⟩ := hnot
    rw [hgetD]
    calc meas.get ⟨specChoose meas, hlt⟩ ≤ u := hjmin u humem
    _ < meas.getD k 0 := hult

/-- Two first-minimum indices for the same measure agree. -/
theorem first_min_unique (g : Nat → Nat) (n j1 j2 : Nat) (h1 : j1 < n) (h2 : j2 < n)
    (min1 : ∀ k, k < n → g j1 ≤ g k) (bef1 : ∀ k, k < j1 → g j1 < g k)
    (min2 : ∀ k, k < n → g j2 ≤ g k) (bef2 : ∀ k, k < j2 → g j2 < g k) : j1 = j2 := by
  rcases lt_trichotomy j1 j2 with hlt | heq | hgt
  · have ha := bef2 j1 hlt
    have hb := min1 j2 h2
    omega
  · exact heq
  · have ha := bef1 j2 hgt
    have hb := min2 j1 h1
    omega

/-- The source's `reduce`-based strict-less scan and the spec's
first-column-of-minimal-measure chooser select the same column. -/
theorem reduceArgmin_eq_specChoose (m : List α → Nat) (cols : List (List α)) (hne : cols ≠ []) :
    reduceArgmin m cols = some (specChoose (cols.map m)) := by
  obtain ⟨j, hj_eq, hj, hmin, hbef⟩ := reduceArgmin_spec m cols hne
  have hmne : cols.map m ≠ [] := by
    intro hcon
    exact hne (List.map_eq_nil_iff.mp hcon)
  obtain ⟨hj2, hmin2, hbef2⟩ := specChoose_spec (cols.map m) hmne
  have hmlen : (cols.map m).length = cols.length := List.length_map cols m
  have hgets : ∀ k, k < cols.length → (cols.map m).getD k 0 = m (cols.getD k []) := by
    intro k hk
    rw [List.getD_eq_getElem (cols.map m) 0 (by omega), List.getD_eq_getElem cols [] hk]
    exact List.getElem_map m
  have hjeq : j = specChoose (cols.map m) := by
    refine first_min_unique (fun k => if hk : k < cols.length then m (cols.getD k []) else 0)
      cols.length j (specChoose (cols.map m)) hj (by omega) ?_ ?_ ?_ ?_
    · intro k hk
      simp only [dif_pos hj, dif_pos hk]
      exact hmin k hk
    · intro k hk
      simp only [dif_pos hj, dif_pos (lt_trans hk hj)]
      exact hbef k hk
    · intro k hk
      simp only [dif_pos (show specChoose (cols.map m) < cols.length by omega), dif_pos hk]
      rw [← hgets _ (by omega), ← hgets _ hk]
      exact hmin2 k (by omega)
    · intro k hk
      simp only [dif_pos (show specChoose (cols.map m) < cols.length by omega),
        dif_pos (lt_trans hk (show specChoose (cols.map m) < cols.length by omega))]
      rw [← hgets _ (by omega), ← hgets _ (lt_trans hk (by omega))]
      exact hbef2 k hk
  rw [hj_eq, hjeq]

/-- When the column exists, `appendChild` succeeds and extends it. -/
theorem placeAt_eq (cols : List (List α)) (j : Nat) (x : α) (hj : j < cols.length) :
    placeAt cols j x = some (cols.set j (cols.getD j [] ++ [x])) := by
  rw [placeAt, List.getElem?_eq_getElem hj, List.getD_eq_getElem cols [] hj]

/-- Appending an item to one column permutes the flattened contents by
appending that item. -/
theorem flatten_set_perm (cols : List (List α)) (j : Nat) (x : α) (hj : j < cols.length) :
    (cols.set j (cols.getD j [] ++ [x])).flatten.Perm (cols.flatten ++ [x]) := by
  induction cols generalizing j with
  | nil => simp at hj
  | cons c0 rest ih =>
    cases j with
    | zero =>
      simp only [List.getD_cons_zero, List.set_cons_zero, List.flatten_cons]
      rw [List.append_assoc, List.append_assoc]
      exact List.Perm.append_left c0 (List.perm_append_comm)
    | succ j2 =>
      have hj2 : j2 < rest.length := by simpa using hj
      simp only [List.getD_cons_succ, List.set_cons_succ, List.flatten_cons]
      rw [List.append_assoc]
      exact List.Perm.append_left c0 (ih j2 hj2)

/-- Flattening `columnCount` empty columns yields no items. -/
theorem flatten_replicate_nil (c : Nat) : (List.replicate c ([] : List α)).flatten = [] := by
  induction c with
  | zero => rfl
  | succ c2 ih => rw [List.replicate_succ, List.flatten_cons, List.nil_append]; exact ih

/-- For at least one column, every strategy branch of `createLayout`
selects some in-range column for the current item. -/
theorem chooseColumn_spec (opts : MasonryOptions) (h : α → Nat) (c : Nat) (hc : 1 ≤ c)
    (cols : List (List α)) (hlen : cols.length = c) (i : Nat) :
    ∃ j, chooseColumn opts h c cols i = some j ∧ j < c := by
  have hne : cols ≠ [] := by
    intro hcon
    rw [hcon] at hlen
    simp at hlen
    omega
  rw [chooseColumn]
  by_cases hs : opts.sortByHeight
  · obtain ⟨j, hj_eq, hj, _, _⟩ := reduceArgmin_spec (fun col => (col.map h).sum) cols hne
    exact ⟨j, by rw [if_pos hs]; exact hj_eq, by omega⟩
  · by_cases ho : opts.horizontalOrder
    · obtain ⟨j, hj_eq, hj, _, _⟩ := reduceArgmin_spec List.length cols hne
      exact ⟨j, by rw [if_neg hs, if_pos ho]; exact hj_eq, by omega⟩
    · exact ⟨i % c, by rw [if_neg hs, if_neg ho], Nat.mod_lt i (by omega)⟩

/-- Invariant lemma for the distribution loop: from any state of `c`
columns it succeeds, preserves the column count, appends the processed
items to the flattened contents up to permutation, and extends each
column by a subsequence of the processed items. -/
theorem distribute_spec (opts : MasonryOptions) (h : α → Nat) (c : Nat) (hc : 1 ≤ c) :
    ∀ (l : List α) (s : List (List α)) (k : Nat), s.length = c →
      ∃ s2, distribute opts h c s k l = some s2 ∧ s2.length = c ∧
        s2.flatten.Perm (s.flatten ++ l) ∧
        ∀ j, j < c → ∃ t, s2.getD j [] = s.getD j [] ++ t ∧ t.Sublist l := by
  intro l
  induction l with
  | nil =>
    intro s k hlen
    refine ⟨s, rfl, hlen, ?_, ?_⟩
    · rw [List.append_nil]
    · intro j hj
      exact ⟨[], by rw [List.append_nil], List.nil_sublist _⟩
  | cons x xs ih =>
    intro s k hlen
    obtain ⟨j, hch, hj⟩ := chooseColumn_spec opts h c hc s hlen k
    have hjs : j < s.length := by omega
    have hplace := placeAt_eq s j x hjs
    have hlen1 : (s.set j (s.getD j [] ++ [x])).length = c := by
      rw [List.length_set]; exact hlen
    obtain ⟨s2, hrun, hlen2, hperm, hcols⟩ := ih (s.set j (s.getD j [] ++ [x])) (k + 1) hlen1
    refine ⟨s2, ?_, hlen2, ?_, ?_⟩
    · simp only [distribute, hch, hplace]
      exact hrun
    · refine hperm.trans ?_
      have h1 := (flatten_set_perm s j x hjs).append_right xs
      have h2 : (s.flatten ++ [x]) ++ xs = s.flatten ++ (x :: xs) := by
        rw [List.append_assoc]
        rfl
      rw [h2] at h1
      exact h1
    · intro j2 hj2
      obtain ⟨t, ht_eq, ht_sub⟩ := hcols j2 hj2
      by_cases hjj : j = j2
      · subst hjj
        have hset : (s.set j (s.getD j [] ++ [x])).getD j [] = s.getD j [] ++ [x] := by
          rw [List.getD_eq_getElem _ [] (by rw [List.length_set]; omega), List.getElem_set]
          rw [if_pos rfl]
        rw [hset] at ht_eq
        refine ⟨x :: t, ?_, List.cons_sublist_cons.mpr ht_sub⟩
        rw [ht_eq, List.append_assoc]
        rfl
      · have hset : (s.set j (s.getD j [] ++ [x])).getD j2 [] = s.getD j2 [] := by
          by_cases hrange : j2 < s.length
          · rw [List.getD_eq_getElem _ [] (by rw [List.length_set]; exact hrange),
              List.getD_eq_getElem _ [] hrange, List.getElem_set, if_neg hjj]
          · rw [List.getD_eq_default _ _ (by rw [List.length_set]; omega),
              List.getD_eq_default _ _ (by omega)]
        rw [hset] at ht_eq
        exact ⟨t, ht_eq, ht_sub.trans (List.sublist_cons_self x xs)⟩

/-- Claim C2: for every item list, every columnCount of at least 1, and
every strategy, the distribution succeeds and produces exactly
columnCount columns; the concatenation of the columns in column order is
a permutation of the input (so every item lands in exactly one column),
and each column is a subsequence of the input, i.e. the original relative
order is preserved within each column. -/
theorem C2_distribution_partition (opts : MasonryOptions) (h : α → Nat)
    (items : List α) (c : Nat) (hc : 1 ≤ c) :
    ∃ cols, createLayout opts h items c = some cols ∧ cols.length = c ∧
      cols.flatten.Perm items ∧ ∀ col ∈ cols, col.Sublist items := by
  obtain ⟨cols, hrun, hlen, hperm, hcols⟩ :=
    distribute_spec opts h c hc items (List.replicate c []) 0 (List.length_replicate c [])
  refine ⟨cols, hrun, hlen, ?_, ?_⟩
  · rw [flatten_replicate_nil, List.nil_append] at hperm
    exact hperm
  · intro col hcol
    obtain ⟨j, hj, hjcol⟩ := List.mem_iff_getElem.mp hcol
    obtain ⟨t, ht_eq, ht_sub⟩ := hcols j (by omega)
    have hrep : (List.replicate c ([] : List α)).getD j [] = [] := by
      rw [List.getD_eq_getElem _ [] (by rw [List.length_replicate]; omega)]
      exact List.getElem_replicate _ _
    rw [hrep, List.nil_append] at ht_eq
    have hcolt : col = t := by
      rw [← hjcol, ← ht_eq, List.getD_eq_getElem cols [] hj]
    rw [hcolt]
    exact ht_sub

/-- Witness for claim C2 at a concrete input. -/
theorem C2_distribution_partition_witness :
    1 ≤ 2 ∧ ∃ cols, createLayout ⟨false, false⟩ (fun _ => 0) ([0, 1, 2] : List Nat) 2 = some cols ∧
      cols.length = 2 ∧ cols.flatten.Perm [0, 1, 2] ∧ ∀ col ∈ cols, col.Sublist [0, 1, 2] :=
  ⟨by omega, C2_distribution_partition ⟨false, false⟩ (fun _ => 0) [0, 1, 2] 2 (by omega)⟩

/-- Mapping a measure over the columns commutes with indexing. -/
theorem getD_map_measure (m : List α → Nat) (s : List (List α)) (k : Nat) (hk : k < s.length) :
    (s.map m).getD k 0 = m (s.getD k []) := by
  rw [List.getD_eq_getElem _ 0 (by simpa using hk), List.getD_eq_getElem _ [] hk]
  exact List.getElem_map m

/-- Both greedy branches of `chooseColumn` run the `reduce` scan with the
measure `measureOf` selects. -/
theorem chooseColumn_greedy (opts : MasonryOptions) (h : α → Nat) (c : Nat)
    (hb : opts.sortByHeight = true ∨ (opts.sortByHeight = false ∧ opts.horizontalOrder = true))
    (cols : List (List α)) (i : Nat) :
    chooseColumn opts h c cols i = reduceArgmin (measureOf opts h) cols := by
  rcases hb with hs | ⟨hs, ho⟩
  · simp [chooseColumn, measureOf, hs]
  · simp [chooseColumn, measureOf, hs, ho]

/-- The greedy branches of the distribution loop compute exactly the
spec-worded greedy distribution: same chooser, same placement, item by
item. -/
theorem distribute_greedy_eq_spec (opts : MasonryOptions) (h : α → Nat) (c : Nat)
    (hb : opts.sortByHeight = true ∨ (opts.sortByHeight = false ∧ opts.horizontalOrder = true)) :
    ∀ (l : List α) (s : List (List α)), s ≠ [] →
      ∀ k, distribute opts h c s k l = some (specDistribute (measureOf opts h) s l) := by
  intro l
  induction l with
  | nil =>
    intro s hne k
    rfl
  | cons x xs ih =>
    intro s hne k
    have hch := chooseColumn_greedy opts h c hb s k
    have hargmin := reduceArgmin_eq_specChoose (measureOf opts h) s hne
    have hmapne : s.map (measureOf opts h) ≠ [] := by
      intro hcon
      exact hne (List.map_eq_nil_iff.mp hcon)
    obtain ⟨hjlt, _, _⟩ := specChoose_spec (s.map (measureOf opts h)) hmapne
    have hjs : specChoose (s.map (measureOf opts h)) < s.length := by simpa using hjlt
    have hplace := placeAt_eq s _ x hjs
    rw [hargmin] at hch
    simp only [distribute, hch, hplace]
    rw [specDistribute]
    have hne2 : (s.set (specChoose (s.map (measureOf opts h)))
        (s.getD (specChoose (s.map (measureOf opts h))) [] ++ [x])) ≠ [] := by
      apply List.ne_nil_of_length_pos
      rw [List.length_set]
      exact List.length_pos.mpr hne
    exact ih _ hne2 (k + 1)

/-- Greedy fewest-items balancing: placing each item into a column of
minimal size keeps all column sizes within one of each other. -/
theorem specDistribute_balanced :
    ∀ (l : List α) (s : List (List α)), s ≠ [] →
      (∀ a ∈ s, ∀ b ∈ s, a.length ≤ b.length + 1) →
      ∀ a ∈ specDistribute List.length s l, ∀ b ∈ specDistribute List.length s l,
        a.length ≤ b.length + 1 := by
  intro l
  induction l with
  | nil =>
    intro s hne hinv
    rw [specDistribute]
    exact hinv
  | cons x xs ih =>
    intro s hne hinv
    rw [specDistribute]
    simp only [specPlace]
    have hmapne : s.map List.length ≠ [] := by
      intro hcon
      exact hne (List.map_eq_nil_iff.mp hcon)
    obtain ⟨hjlt, hmin, _⟩ := specChoose_spec (s.map List.length) hmapne
    have hjs : specChoose (s.map List.length) < s.length := by simpa using hjlt
    have hmin2 : ∀ bb ∈ s, (s.getD (specChoose (s.map List.length)) []).length ≤ bb.length := by

      intro bb hbb
      obtain ⟨kb, hkb, hbk⟩ := List.mem_iff_getElem.mp hbb
      have := hmin kb (by simpa using hkb)
      rw [getD_map_measure List.length s _ hjs, getD_map_measure List.length s kb hkb] at this
      rw [List.getD_eq_getElem s [] hkb, hbk] at this
      exact this
    apply ih
    · apply List.ne_nil_of_length_pos
      rw [List.length_set]
      exact List.length_pos.mpr hne
    · intro a ha b hb
      have hjmem : s.getD (specChoose (s.map List.length)) [] ∈ s := by
        rw [List.getD_eq_getElem s [] hjs]
        exact List.getElem_mem hjs
      rcases List.mem_or_eq_of_mem_set (by exact ha) with ha2 | ha3
      · rcases List.mem_or_eq_of_mem_set (by exact hb) with hb2 | hb3
        · exact hinv a ha2 b hb2
        · have := hinv a ha2 _ hjmem
          rw [hb3, List.length_append]
          simp only [List.length_singleton]
          omega
      · rcases List.mem_or_eq_of_mem_set (by exact hb) with hb2 | hb3
        · have := hmin2 b hb2
          rw [ha3, List.length_append]
          simp only [List.length_singleton]
          omega
        · rw [ha3, hb3]
          omega

/-- Claim C4: under the fewest-items strategy (`horizontalOrder` set,
`sortByHeight` unset) each item, taken in original order, is placed into
the column currently holding the fewest items, with ties broken by the
lowest column index (the layout equals the spec-worded greedy on item
counts), and at completion the per-column item counts pairwise differ by
at most 1. -/
theorem C4_fewest_items (items : List α) (c : Nat) (h : α → Nat) (hc : 1 ≤ c) :
    ∃ cols, createLayout ⟨false, true⟩ h items c = some cols ∧
      cols = specFewestItems items c ∧
      ∀ a ∈ cols, ∀ b ∈ cols, a.length ≤ b.length + 1 := by
  have hne : List.replicate c ([] : List α) ≠ [] := by
    apply List.ne_nil_of_length_pos
    rw [List.length_replicate]
    omega
  refine ⟨specFewestItems items c, ?_, rfl, ?_⟩
  · exact distribute_greedy_eq_spec ⟨false, true⟩ h c (Or.inr ⟨rfl, rfl⟩) items
      (List.replicate c []) hne 0
  · apply specDistribute_balanced items (List.replicate c []) hne
    intro a ha b hb
    rw [List.eq_of_mem_replicate ha]
    simp

/-- Witness for claim C4 at a concrete input. -/
theorem C4_fewest_items_witness :
    1 ≤ 2 ∧ ∃ cols, createLayout ⟨false, true⟩ (fun _ => 0) ([0, 1, 2, 3, 4] : List Nat) 2
        = some cols ∧
      cols = specFewestItems [0, 1, 2, 3, 4] 2 ∧
      ∀ a ∈ cols, ∀ b ∈ cols, a.length ≤ b.length + 1 :=
  ⟨by omega, C4_fewest_items [0, 1, 2, 3, 4] 2 (fun _ => 0) (by omega)⟩

/-- Claim C5: under the shortest-height strategy (`sortByHeight` set,
which is checked before `horizontalOrder`), for every externally supplied
per-item height provider, each item in original order is placed into the
column whose accumulated height is currently smallest, with ties broken
by the lowest column index: the layout equals the spec-worded greedy on
accumulated heights. -/
theorem C5_shortest_height (items : List α) (c : Nat) (h : α → Nat) (b : Bool) (hc : 1 ≤ c) :
    createLayout ⟨true, b⟩ h items c = some (specShortestHeight h items c) := by
  have hne : List.replicate c ([] : List α) ≠ [] := by
    apply List.ne_nil_of_length_pos
    rw [List.length_replicate]
    omega
  exact distribute_greedy_eq_spec ⟨true, b⟩ h c (Or.inl rfl) items
    (List.replicate c []) hne 0

/-- Witness for claim C5 at a concrete input. -/
theorem C5_shortest_height_witness :
    1 ≤ 2 ∧ createLayout ⟨true, false⟩ (fun n => n) ([5, 1, 1, 1, 9] : List Nat) 2
      = some (specShortestHeight (fun n => n) [5, 1, 1, 1, 9] 2) :=
  ⟨by omega, C5_shortest_height [5, 1, 1, 1, 9] 2 (fun n => n) false (by omega)⟩

/-- The sequential branch picks `index % columnCount`. -/
theorem chooseColumn_seq (h : α → Nat) (c : Nat) (cols : List (List α)) (i : Nat) :
    chooseColumn ⟨false, false⟩ h c cols i = some (i % c) := rfl

/-- Closed form of the sequential branch: starting at running index `k`,
column `j` receives, in order, exactly the items whose running index is
congruent to `j` modulo the column count. -/
theorem distribute_seq_closed (h : α → Nat) (c : Nat) (hc : 1 ≤ c) :
    ∀ (l : List α) (s : List (List α)) (k : Nat), s.length = c →
      ∃ s2, distribute ⟨false, false⟩ h c s k l = some s2 ∧ s2.length = c ∧
        ∀ j, j < c → s2.getD j [] = s.getD j [] ++
          ((List.enumFrom k l).filter (fun p => decide (p.1 % c = j))).map Prod.snd := by
  intro l
  induction l with
  | nil =>
    intro s k hlen
    refine ⟨s, rfl, hlen, ?_⟩
    intro j hj
    simp
  | cons x xs ih =>
    intro s k hlen
    have hjs : k % c < s.length := by
      rw [hlen]
      exact Nat.mod_lt k (by omega)
    have hplace := placeAt_eq s (k % c) x hjs
    have hlen1 : (s.set (k % c) (s.getD (k % c) [] ++ [x])).length = c := by
      rw [List.length_set]
      exact hlen
    obtain ⟨s2, hrun, hlen2, hcols⟩ :=
      ih (s.set (k % c) (s.getD (k % c) [] ++ [x])) (k + 1) hlen1
    refine ⟨s2, ?_, hlen2, ?_⟩
    · simp only [distribute, chooseColumn_seq, hplace]
      exact hrun
    · intro j hj
      have hstep := hcols j hj
      have henum : List.enumFrom k (x :: xs) = (k, x) :: List.enumFrom (k + 1) xs := rfl
      rw [henum, List.filter_cons]
      by_cases hkj : k % c = j
      · have hset : (s.set (k % c) (s.getD (k % c) [] ++ [x])).getD j []
            = s.getD j [] ++ [x] := by
          rw [List.getD_eq_getElem _ [] (by rw [List.length_set]; omega), List.getElem_set,
            if_pos hkj, hkj]
        rw [if_pos (by simpa using hkj), List.map_cons, hstep, hset, List.append_assoc]
        rfl
      · have hset : (s.set (k % c) (s.getD (k % c) [] ++ [x])).getD j []
            = s.getD j [] := by
          have hjlen : j < s.length := by omega
          have hjlen2 : j < (s.set (k % c) (s.getD (k % c) [] ++ [x])).length := by
            rw [List.length_set]
            omega
          rw [List.getD_eq_getElem _ [] hjlen2, List.getD_eq_getElem s [] hjlen,
            List.getElem_set]
          exact if_neg hkj
        rw [if_neg (by simpa using hkj), hstep, hset]

/-- Enumerating an already-enumerated list pairs every element with its
own original index. -/
theorem enum_enum (l : List α) : (l.enum).enum = l.enum.map (fun p => (p.1, p)) := by
  apply List.ext_getElem
  · rw [List.enum_length, List.length_map, List.enum_length]
  · intro n h1 h2
    simp [List.getElem_enum]

/-- Claim C3: under the sequential strategy, the item at original index
`i` is assigned to column `i mod c` (column `j` holds exactly the
index-carrying items whose index is congruent to `j`, in their original
order), and concatenating the columns and re-sorting by original index
reconstructs the input list exactly. -/
theorem C3_sequential (L : List α) (c : Nat) (h : Nat × α → Nat) (hc : 1 ≤ c) :
    ∃ cols, createLayout ⟨false, false⟩ h L.enum c = some cols ∧ cols.length = c ∧
      (∀ j, j < c → cols.getD j [] = L.enum.filter (fun p => decide (p.1 % c = j))) ∧
      sortByIdx cols.flatten = L.enum ∧
      (sortByIdx cols.flatten).map Prod.snd = L := by
  obtain ⟨cols, hrun, hlen, hcols⟩ :=
    distribute_seq_closed h c hc L.enum (List.replicate c []) 0 (List.length_replicate c [])
  obtain ⟨cols2, hrun2, hlen2, hperm, hsub⟩ :=
    distribute_spec ⟨false, false⟩ h c hc L.enum (List.replicate c []) 0
      (List.length_replicate c [])
  rw [hrun] at hrun2
  have hcc : cols = cols2 := Option.some.inj hrun2
  rw [← hcc] at hperm
  rw [flatten_replicate_nil, List.nil_append] at hperm
  have hsort_perm : (sortByIdx cols.flatten).Perm L.enum :=
    (List.perm_insertionSort rleIdx cols.flatten).trans hperm
  have hsorted_le : List.Pairwise rleIdx (sortByIdx cols.flatten) :=
    List.sorted_insertionSort rleIdx cols.flatten
  have hnodup : List.Pairwise (fun a b : Nat × α => a.1 ≠ b.1) (sortByIdx cols.flatten) := by
    have hmap : ((sortByIdx cols.flatten).map Prod.fst).Perm (L.enum.map Prod.fst) :=
      hsort_perm.map Prod.fst
    rw [List.enum_map_fst] at hmap
    have : ((sortByIdx cols.flatten).map Prod.fst).Nodup :=
      hmap.nodup_iff.mpr (List.nodup_range L.length)
    exact List.pairwise_map.mp this
  have hsorted_lt : List.Pairwise rltIdx (sortByIdx cols.flatten) :=
    (hsorted_le.and hnodup).imp (fun hab => lt_of_le_of_ne hab.1 hab.2)
  have henum_lt : List.Pairwise rltIdx (L.enum : List (Nat × α)) := by
    have hr := List.pairwise_lt_range L.length
    rw [← List.enum_map_fst L] at hr
    exact (@List.pairwise_map _ _ Prod.fst (fun a b => a < b) L.enum).mp hr
  have hsort_eq : sortByIdx cols.flatten = L.enum :=
    @List.eq_of_perm_of_sorted _ rltIdx _ _ _ hsort_perm hsorted_lt henum_lt
  refine ⟨cols, hrun, hlen, ?_, hsort_eq, by rw [hsort_eq, List.enum_map_snd]⟩
  intro j hj
  have hrep : (List.replicate c ([] : List (Nat × α))).getD j [] = [] := by
    rw [List.getD_eq_getElem _ [] (by rw [List.length_replicate]; omega)]
    exact List.getElem_replicate _ _
  have hform := hcols j hj
  rw [hrep, List.nil_append] at hform
  have hconv : ((List.enumFrom 0 L.enum).filter
        (fun p => decide (p.1 % c = j))).map Prod.snd
      = L.enum.filter (fun p => decide (p.1 % c = j)) := by
    have he : List.enumFrom 0 L.enum = (L.enum).enum := rfl
    rw [he, enum_enum, List.filter_map, List.map_map]
    have h1 : (Prod.snd ∘ fun p : Nat × α => (p.1, p)) = id := rfl
    have h2 : ((fun q : Nat × (Nat × α) => decide (q.1 % c = j)) ∘ fun p : Nat × α => (p.1, p))
        = fun p : Nat × α => decide (p.1 % c = j) := rfl
    rw [h1, h2, List.map_id]
  rw [hform, hconv]

/-- Witness for claim C3 at a concrete input. -/
theorem C3_sequential_witness :
    1 ≤ 2 ∧ ∃ cols,
      createLayout ⟨false, false⟩ (fun _ => 0) (List.enum ["a", "b", "c"]) 2 = some cols ∧
      cols.length = 2 ∧
      (∀ j, j < 2 → cols.getD j [] = (List.enum ["a", "b", "c"]).filter
        (fun p => decide (p.1 % 2 = j))) ∧
      sortByIdx cols.flatten = List.enum ["a", "b", "c"] ∧
      (sortByIdx cols.flatten).map Prod.snd = ["a", "b", "c"] :=
  ⟨by omega, C3_sequential ["a", "b", "c"] 2 (fun _ => 0) (by omega)⟩

/-- Updating a column and reading it back yields the update. -/
theorem getD_set_self {β : Type u} (s : List β) (j : Nat) (v d : β) (hj : j < s.length) :
    (s.set j v).getD j d = v := by
  rw [List.getD_eq_getElem _ d (by rw [List.length_set]; omega), List.getElem_set, if_pos rfl]

/-- Updating one column leaves the others unchanged. -/
theorem getD_set_ne {β : Type u} (s : List β) (j j2 : Nat) (v d : β) (hne : j ≠ j2) :
    (s.set j v).getD j2 d = s.getD j2 d := by
  by_cases hr : j2 < s.length
  · have h2 : j2 < (s.set j v).length := by rw [List.length_set]; omega
    rw [List.getD_eq_getElem _ d h2, List.getD_eq_getElem s d hr, List.getElem_set]
    exact if_neg hne
  · rw [List.getD_eq_default _ _ (by rw [List.length_set]; omega),
      List.getD_eq_default _ _ (by omega)]

/-- Division-with-remainder step of the round-robin profile: placing one
more item increments exactly the count of column `k mod c`. -/
theorem profile_succ (k c j : Nat) (hc : 1 ≤ c) (hj : j < c) :
    profileCount (k + 1) c j = profileCount k c j + (if j = k % c then 1 else 0) := by
  have hmod := Nat.div_add_mod k c
  have hr : k % c < c := Nat.mod_lt k (by omega)
  by_cases hcase : k % c + 1 = c
  · have h1 : k + 1 = c * (k / c + 1) := by
      rw [Nat.mul_add, Nat.mul_one]
      omega
    have hdiv : (k + 1) / c = k / c + 1 := by
      rw [h1]
      exact Nat.mul_div_cancel_left _ (by omega)
    have hmod2 : (k + 1) % c = 0 := by
      rw [h1]
      exact Nat.mul_mod_right c _
    simp only [profileCount, hdiv, hmod2]
    rw [if_neg (Nat.not_lt_zero j)]
    by_cases hjr : j = k % c
    · rw [if_neg (by omega), if_pos hjr]
    · rw [if_pos (by omega), if_neg hjr]
  · have h1 : k + 1 = (k % c + 1) + c * (k / c) := by omega
    have hdiv : (k + 1) / c = k / c := by
      rw [h1, Nat.add_mul_div_left _ _ (show 0 < c by omega), Nat.div_eq_of_lt (by omega)]
      omega
    have hmod2 : (k + 1) % c = k % c + 1 := by
      rw [h1, Nat.add_mul_mod_self_left]
      exact Nat.mod_eq_of_lt (by omega)
    simp only [profileCount, hdiv, hmod2]
    by_cases hjr : j = k % c
    · rw [if_pos (by omega), if_neg (by omega), if_pos hjr]
    · by_cases hjlt : j < k % c
      · rw [if_pos (by omega), if_pos hjlt, if_neg hjr]
      · rw [if_neg (by omega), if_neg hjlt, if_neg hjr]

/-- On a round-robin profile the fewest-items `reduce` scan picks
column `k mod c`: columns left of it hold one item more, columns from it
on hold the minimum. -/
theorem argmin_profile (c k : Nat) (hc : 1 ≤ c) (s : List (List α)) (hlen : s.length = c)
    (hprof : ∀ j, j < c → (s.getD j []).length = profileCount k c j) :
    reduceArgmin List.length s = some (k % c) := by
  have hne : s ≠ [] := by
    apply List.ne_nil_of_length_pos
    omega
  obtain ⟨j, hj_eq, hj, hmin, hbef⟩ := reduceArgmin_spec List.length s hne
  have hkc : k % c < c := Nat.mod_lt k (by omega)
  have hjc : j < c := by omega
  have hjeq : j = k % c := by
    refine first_min_unique (fun i => (s.getD i []).length) c j (k % c) hjc hkc ?_ ?_ ?_ ?_
    · intro i hi
      exact hmin i (by omega)
    · intro i hi
      exact hbef i hi
    · intro i hi
      show (s.getD (k % c) []).length ≤ (s.getD i []).length
      rw [hprof _ hkc, hprof i hi]
      simp only [profileCount]
      rw [if_neg (lt_irrefl (k % c))]
      by_cases h2 : i < k % c
      · rw [if_pos h2]
        omega
      · rw [if_neg h2]
    · intro i hi
      show (s.getD (k % c) []).length < (s.getD i []).length
      rw [hprof _ hkc, hprof i (by omega)]
      simp only [profileCount]
      rw [if_neg (lt_irrefl (k % c)), if_pos hi]
      omega
  rw [hj_eq, hjeq]

/-- From a round-robin profile, the fewest-items branch makes exactly
the sequential choice at every step, so both runs coincide. -/
theorem distribute_fewest_eq_seq (h : α → Nat) (c : Nat) (hc : 1 ≤ c) :
    ∀ (l : List α) (s : List (List α)) (k : Nat), s.length = c →
      (∀ j, j < c → (s.getD j []).length = profileCount k c j) →
      distribute ⟨false, true⟩ h c s k l = distribute ⟨false, false⟩ h c s k l := by
  intro l
  induction l with
  | nil =>
    intro s k _ _
    rfl
  | cons x xs ih =>
    intro s k hlen hprof
    have hch1 : chooseColumn ⟨false, true⟩ h c s k = some (k % c) :=
      argmin_profile c k hc s hlen hprof
    have hkc : k % c < s.length := by
      rw [hlen]
      exact Nat.mod_lt k (by omega)
    have hplace := placeAt_eq s (k % c) x hkc
    simp only [distribute, hch1, chooseColumn_seq, hplace]
    apply ih
    · rw [List.length_set]
      exact hlen
    · intro j hj
      rw [profile_succ k c j hc hj]
      by_cases hkj : k % c = j
      · rw [hkj, getD_set_self s j _ [] (by omega), List.length_append, if_pos rfl]
        rw [hprof j hj]
        simp
      · rw [getD_set_ne s (k % c) j _ [] hkj, if_neg (fun hcon => hkj hcon.symm)]
        rw [hprof j hj]
        omega

/-- Claim C10: starting from empty columns, the fewest-items strategy
produces exactly the same column assignment as the sequential strategy
(item `i` to column `i mod c`): the strict less-than comparison breaks
every tie toward the lowest column index, so the greedy placement
degenerates to round-robin. -/
theorem C10_fewest_equals_sequential (items : List α) (c : Nat) (h : α → Nat) (hc : 1 ≤ c) :
    createLayout ⟨false, true⟩ h items c = createLayout ⟨false, false⟩ h items c := by
  apply distribute_fewest_eq_seq h c hc items (List.replicate c []) 0 (List.length_replicate c [])
  intro j hj
  have hrep : (List.replicate c ([] : List α)).getD j [] = [] := by
    rw [List.getD_eq_getElem _ [] (by rw [List.length_replicate]; omega)]
    exact List.getElem_replicate _ _
  rw [hrep]
  simp only [profileCount, Nat.zero_div, Nat.zero_mod]
  rw [if_neg (Nat.not_lt_zero j)]
  rfl

/-- Witness for claim C10 at a concrete input. -/
theorem C10_fewest_equals_sequential_witness :
    1 ≤ 2 ∧ createLayout ⟨false, true⟩ (fun n => n) ([4, 9, 2, 7, 5] : List Nat) 2
      = createLayout ⟨false, false⟩ (fun n => n) [4, 9, 2, 7, 5] 2 :=
  ⟨by omega, C10_fewest_equals_sequential [4, 9, 2, 7, 5] 2 (fun n => n) (by omega)⟩

/-- If the width exceeds every threshold, the walk keeps the default. -/
theorem resolveWalk_default (w : Int) :
    ∀ (l : List (Int × Int)) (d : Option Int), (∀ p ∈ l, p.1 < w) → resolveWalk w l d = d := by
  intro l
  induction l with
  | nil =>
    intro d _
    rfl
  | cons p rest ih =>
    intro d hall
    obtain ⟨k, v⟩ := p
    have hk : k < w := hall (k, v) (List.mem_cons_self _ _)
    simp only [resolveWalk, if_neg (not_le.mpr hk)]
    exact ih d (fun q hq => hall q (List.mem_cons_of_mem _ hq))

/-- On a list sorted ascending by threshold, the walk returns the value
of a qualifying entry whose threshold is minimal among all qualifiers,
and it is the first such entry. -/
theorem resolveWalk_first (w : Int) :
    ∀ (l : List (Int × Int)) (d : Option Int), l.Pairwise rleFst →
      (∃ p ∈ l, w ≤ p.1) →
      ∃ q ∈ l, w ≤ q.1 ∧ (∀ p ∈ l, w ≤ p.1 → q.1 ≤ p.1) ∧ resolveWalk w l d = some q.2 := by
  intro l
  induction l with
  | nil =>
    intro d _ hex
    obtain ⟨p, hp, _⟩ := hex
    cases hp
  | cons p rest ih =>
    intro d hsorted hex
    obtain ⟨k, v⟩ := p
    by_cases hw : w ≤ k
    · refine ⟨(k, v), List.mem_cons_self _ _, hw, ?_, ?_⟩
      · intro p2 hp2 _
        rcases List.mem_cons.mp hp2 with rfl | hp3
        · exact le_refl _
        · exact (List.pairwise_cons.mp hsorted).1 p2 hp3
      · simp only [resolveWalk, if_pos hw]
    · have hex2 : ∃ p ∈ rest, w ≤ p.1 := by
        obtain ⟨p2, hp2, hle⟩ := hex
        rcases List.mem_cons.mp hp2 with rfl | hp3
        · exact absurd hle hw
        · exact ⟨p2, hp3, hle⟩
      obtain ⟨q, hqmem, hqle, hqmin, hqeq⟩ := ih d (List.pairwise_cons.mp hsorted).2 hex2
      refine ⟨q, List.mem_cons_of_mem _ hqmem, hqle, ?_, ?_⟩
      · intro p2 hp2 hple
        rcases List.mem_cons.mp hp2 with rfl | hp3
        · exact absurd hple hw
        · exact hqmin p2 hp3 hple
      · simp only [resolveWalk, if_neg hw]
        exact hqeq

/-- Claim C1: `calculateColumnCount` walks the thresholds sorted
ascending and returns the table value at the first (smallest) threshold
at or above the width, the comparison being inclusive; if the width
exceeds every threshold it returns the default; and on the table with
thresholds 100 and 300 mapping to 1 and 2 with default 3 it yields
1, 1, 2, 3 at widths 50, 100, 250, 400. -/
theorem C1_resolve (w : Int) (thresholds : List (Int × Int)) (d : Int) :
    ((∃ p ∈ thresholds, w ≤ p.1) →
      ∃ q ∈ thresholds, w ≤ q.1 ∧ (∀ p ∈ thresholds, w ≤ p.1 → q.1 ≤ p.1) ∧
        calculateColumnCount w thresholds (some d) = some q.2) ∧
    ((∀ p ∈ thresholds, p.1 < w) → calculateColumnCount w thresholds (some d) = some d) ∧
    calculateColumnCount 50 [(100, 1), (300, 2)] (some 3) = some 1 ∧
    calculateColumnCount 100 [(100, 1), (300, 2)] (some 3) = some 1 ∧
    calculateColumnCount 250 [(100, 1), (300, 2)] (some 3) = some 2 ∧
    calculateColumnCount 400 [(100, 1), (300, 2)] (some 3) = some 3 := by
  have hperm : (sortThresholds thresholds).Perm thresholds :=
    List.perm_insertionSort rleFst thresholds
  have hsorted : (sortThresholds thresholds).Pairwise rleFst :=
    List.sorted_insertionSort rleFst thresholds
  refine ⟨?_, ?_, by decide, by decide, by decide, by decide⟩
  · intro hex
    have hex2 : ∃ p ∈ sortThresholds thresholds, w ≤ p.1 := by
      obtain ⟨p, hp, hle⟩ := hex
      exact ⟨p, hperm.mem_iff.mpr hp, hle⟩
    obtain ⟨q, hqmem, hqle, hqmin, hqeq⟩ :=
      resolveWalk_first w (sortThresholds thresholds) (some d) hsorted hex2
    refine ⟨q, hperm.mem_iff.mp hqmem, hqle, ?_, hqeq⟩
    intro p hp hple
    exact hqmin p (hperm.mem_iff.mpr hp) hple
  · intro hall
    exact resolveWalk_default w (sortThresholds thresholds) (some d)
      (fun p hp => hall p (hperm.mem_iff.mp hp))

/-- Witness for claim C1: the first-match part applied at width 50 on
the concrete table. -/
theorem C1_resolve_witness :
    (∃ p ∈ ([(100, 1), (300, 2)] : List (Int × Int)), (50 : Int) ≤ p.1) ∧
    ∃ q ∈ ([(100, 1), (300, 2)] : List (Int × Int)), (50 : Int) ≤ q.1 ∧
      (∀ p ∈ ([(100, 1), (300, 2)] : List (Int × Int)), (50 : Int) ≤ p.1 → q.1 ≤ p.1) ∧
      calculateColumnCount 50 [(100, 1), (300, 2)] (some 3) = some q.2 :=
  ⟨by decide, (C1_resolve 50 [(100, 1), (300, 2)] 3).1 (by decide)⟩

/-- Claim C6 failing run: a burst of three width signals inside one
quiescence window (limit 200) followed by silence.  Only the first
signal is handled; the trailing timer is scheduled with the last width
(30) but its elapsed check uses the `now` captured at schedule time
(1150 minus lastRan 1000 falls short of 200), so the trailing
re-evaluation never runs and the final handled width stays 10, not 30. -/
theorem C6_throttle_burst_drops_trailing :
    (runBurst 200 [(1000, 10), (1100, 20), (1150, 30)]).2 = [(1000, 10)] ∧
    firePending 200 (runBurst 200 [(1000, 10), (1100, 20), (1150, 30)]).1 = [] := by
  exact ⟨rfl, rfl⟩

/-- Claim C7 counterexample: the attribute value `"null"` parses to JSON
`null`, which is not a table, yet the constructor stores it unchanged
with no fallback and no diagnostic (it passes the
`typeof parsed === "object"` test), and the later column-count
calculation throws a `TypeError` instead of recovering. -/
theorem C7_null_breaks_recovery :
    parseBreakpointCols (some Json.null) = (BVal.nullv, false) ∧
    calcColumnCountOf BVal.nullv 500
      = Except.error "TypeError: cannot convert null to object" :=
  ⟨rfl, rfl⟩

/-- Claim C7 amended: for every breakpoint configuration input on which
JSON parsing throws, the constructor recovers locally with the fallback
table mapping default to 2, reports the condition via the diagnostic
channel, and the subsequent column-count calculation succeeds with 2. -/
theorem C7_parse_failure_fallback (w : Int) :
    parseBreakpointCols none = (BVal.table [] (some 2), true) ∧
    calcColumnCountOf (BVal.table [] (some 2)) w = Except.ok (some 2) :=
  ⟨rfl, rfl⟩

/-- Witness for the amended claim C7 at a concrete width. -/
theorem C7_parse_failure_fallback_witness :
    parseBreakpointCols none = (BVal.table [] (some 2), true) ∧
    calcColumnCountOf (BVal.table [] (some 2)) 500 = Except.ok (some 2) :=
  C7_parse_failure_fallback 500

/-- Claim C8 failing run: a table with the non-positive default 0 is
accepted by the constructor without any error, and the column count then
resolves to 0; nothing rejects the configuration at load time. -/
theorem C8_nonpositive_default_accepted :
    parseBreakpointCols (some (Json.obj [] (some 0))) = (BVal.table [] (some 0), false) ∧
    calcColumnCountOf (BVal.table [] (some 0)) 500 = Except.ok (some 0) :=
  ⟨rfl, rfl⟩

/-- Claim C9 failing runs: with zero columns the distributor silently
succeeds on an empty item list (zero columns, no error of any kind), and
on a nonempty list it dies only with the modelled `TypeError` of
`undefined.appendChild` after computing `index % 0`, not with a
fail-fast validation error. -/
theorem C9_zero_columns_not_rejected :
    createLayout ⟨false, false⟩ (fun _ => 0) ([] : List Nat) 0 = some [] ∧
    createLayout ⟨false, false⟩ (fun _ => 0) ([7] : List Nat) 0 = none :=
  ⟨rfl, rfl⟩

end Masonry
